import Mathlib

/-!
Verification of the image-transform pipeline of nonebot-plugin-petpet
(file `nonebot_plugin_petpet/utils.py`), shallowly embedded in Lean 4.

The Python code's float arithmetic is modelled over `ℚ`; Python's `int(x)`
(truncation toward zero) is `pyInt`.  Where a claim is sensitive to IEEE
rounding — the INCLUDE coverage of `fit_size` — the binary64 rounding
itself is modelled exactly (`roundDouble`, `fitRatioF`, `fitScaledF`).
Images are modelled by the data the claims speak about: dimensions, paste
offsets, and (for the perspective warp) a pixel-sampling function over
rational coordinates, which is the contract of the external resampling
collaborator.
-/

namespace Petpet

/-- Python's `int(q)` on a float value: truncation toward zero. -/
def pyInt (q : ℚ) : ℤ := if q < 0 then ⌈q⌉ else ⌊q⌋

lemma pyInt_of_nonneg {q : ℚ} (h : 0 ≤ q) : pyInt q = ⌊q⌋ := by
  simp [pyInt, not_lt.mpr h]

lemma pyInt_natCast (n : ℕ) : pyInt (n : ℚ) = (n : ℤ) := by
  rw [pyInt_of_nonneg (by positivity)]
  exact Int.floor_natCast n

/-! ## Animation sampler (`make_jpg_or_gif`, utils.py lines 168-188) -/

/-- The `ratio = img.n_frames / gif_max_frames` computed by `make_jpg_or_gif`. -/
def frameRatio (total maxFrames : ℕ) : ℚ := (total : ℚ) / (maxFrames : ℚ)

/-- The frame indices over which `make_jpg_or_gif` iterates: all of
`range(img.n_frames)` unless `ratio > 1`, in which case
`int(i * ratio) for i in range(gif_max_frames)`. -/
def sampleIndices (total maxFrames : ℕ) : List ℤ :=
  if 1 < frameRatio total maxFrames then
    (List.range maxFrames).map fun (i : ℕ) => pyInt ((i : ℚ) * frameRatio total maxFrames)
  else
    (List.range total).map (Nat.cast : ℕ → ℤ)

/-- The output per-frame duration of `make_jpg_or_gif`:
`img.info["duration"] / 1000`, multiplied by `ratio` when `ratio > 1`. -/
def sampleDuration (total maxFrames : ℕ) (native : ℚ) : ℚ :=
  if 1 < frameRatio total maxFrames then native * frameRatio total maxFrames
  else native

lemma frameRatio_gt_one_iff {total maxFrames : ℕ} (hm : 0 < maxFrames) :
    1 < frameRatio total maxFrames ↔ maxFrames < total := by
  unfold frameRatio
  rw [one_lt_div (by exact_mod_cast hm)]
  exact_mod_cast Iff.rfl

lemma sampleIndices_of_le {total maxFrames : ℕ} (hm : 0 < maxFrames)
    (hle : total ≤ maxFrames) :
    sampleIndices total maxFrames = (List.range total).map (Nat.cast : ℕ → ℤ) := by
  unfold sampleIndices
  rw [if_neg]
  rw [frameRatio_gt_one_iff hm]
  omega

lemma sampleIndices_of_lt {total maxFrames : ℕ} (hm : 0 < maxFrames)
    (hlt : maxFrames < total) :
    sampleIndices total maxFrames =
      (List.range maxFrames).map fun (i : ℕ) => pyInt ((i : ℚ) * frameRatio total maxFrames) := by
  unfold sampleIndices
  rw [if_pos ((frameRatio_gt_one_iff hm).mpr hlt)]

/-- C6: for every total_frames > 0 and max_frames > 0, the sampler emits
exactly `min total_frames max_frames` indices: all of them when the frame
count is within budget, and the `int(i * ratio)` subsample of exactly
`max_frames` indices otherwise. -/
theorem sample_frame_budget (total maxFrames : ℕ)
    (ht : 0 < total) (hm : 0 < maxFrames) :
    (sampleIndices total maxFrames).length = min total maxFrames ∧
    (total ≤ maxFrames →
      sampleIndices total maxFrames = (List.range total).map (Nat.cast : ℕ → ℤ)) ∧
    (maxFrames < total →
      sampleIndices total maxFrames =
        (List.range maxFrames).map fun (i : ℕ) => pyInt ((i : ℚ) * frameRatio total maxFrames)) := by
  refine ⟨?_, fun h => sampleIndices_of_le hm h, fun h => sampleIndices_of_lt hm h⟩
  rcases le_or_lt total maxFrames with hle | hlt
  · rw [sampleIndices_of_le hm hle, List.length_map, List.length_range]
    omega
  · rw [sampleIndices_of_lt hm hlt, List.length_map, List.length_range]
    omega

theorem sample_frame_budget_witness :
    0 < 120 ∧ 0 < 50 ∧ (sampleIndices 120 50).length = min 120 50 :=
  ⟨by decide, by decide, (sample_frame_budget 120 50 (by decide) (by decide)).1⟩

/-- C7: when `ratio = total/max > 1`, the emitted duration is the native one
scaled by `ratio`, so duration times the number of emitted indices equals
the native duration times the total frame count (exact in `ℚ`). -/
theorem sample_duration_conservation (total maxFrames : ℕ) (native : ℚ)
    (hm : 0 < maxFrames) (hlt : maxFrames < total) :
    sampleDuration total maxFrames native = native * frameRatio total maxFrames ∧
    sampleDuration total maxFrames native * ((sampleIndices total maxFrames).length : ℚ) =
      native * (total : ℚ) := by
  have hdur : sampleDuration total maxFrames native = native * frameRatio total maxFrames := by
    unfold sampleDuration
    rw [if_pos ((frameRatio_gt_one_iff hm).mpr hlt)]
  have hm0 : (maxFrames : ℚ) ≠ 0 := by positivity
  refine ⟨hdur, ?_⟩
  rw [hdur, sampleIndices_of_lt hm hlt, List.length_map, List.length_range]
  unfold frameRatio
  field_simp

theorem sample_duration_conservation_witness :
    0 < 50 ∧ 50 < 120 ∧
      sampleDuration 120 50 (1/25) * ((sampleIndices 120 50).length : ℚ) =
        (1/25) * (120 : ℚ) :=
  ⟨by decide, by decide,
    (sample_duration_conservation 120 50 (1/25) (by decide) (by decide)).2⟩

lemma sampleIndices_strict_mono_step {total maxFrames : ℕ} (hm : 0 < maxFrames)
    (hlt : maxFrames < total) {a b : ℕ} (hab : a < b) :
    pyInt ((a : ℚ) * frameRatio total maxFrames) <
      pyInt ((b : ℚ) * frameRatio total maxFrames) := by
  set r := frameRatio total maxFrames with hr
  have hr1 : 1 < r := (frameRatio_gt_one_iff hm).mpr hlt
  have hr0 : (0 : ℚ) ≤ r := le_trans zero_le_one hr1.le
  have ha : (0 : ℚ) ≤ (a : ℚ) * r := mul_nonneg (by positivity) hr0
  have hb : (0 : ℚ) ≤ (b : ℚ) * r := mul_nonneg (by positivity) hr0
  rw [pyInt_of_nonneg ha, pyInt_of_nonneg hb]
  have hstep : (a : ℚ) * r + 1 ≤ (b : ℚ) * r := by
    have hcast : (a : ℚ) + 1 ≤ (b : ℚ) := by exact_mod_cast hab
    nlinarith
  calc ⌊(a : ℚ) * r⌋ < ⌊(a : ℚ) * r⌋ + 1 := by omega
    _ = ⌊(a : ℚ) * r + 1⌋ := (Int.floor_add_one _).symm
    _ ≤ ⌊(b : ℚ) * r⌋ := Int.floor_le_floor hstep

/-- C8: the emitted indices are strictly increasing, each lies in
`[0, total)`, and the emitted duration is positive for positive native
duration. -/
theorem sample_index_invariant (total maxFrames : ℕ)
    (ht : 0 < total) (hm : 0 < maxFrames) :
    (sampleIndices total maxFrames).Pairwise (· < ·) ∧
    (∀ i ∈ sampleIndices total maxFrames, 0 ≤ i ∧ i < (total : ℤ)) ∧
    (∀ native : ℚ, 0 < native → 0 < sampleDuration total maxFrames native) := by
  refine ⟨?_, ?_, ?_⟩
  · rcases le_or_lt total maxFrames with hle | hlt
    · rw [sampleIndices_of_le hm hle, List.pairwise_map]
      refine List.Pairwise.imp ?_ (List.pairwise_lt_range total)
      intro a b hab
      exact_mod_cast hab
    · rw [sampleIndices_of_lt hm hlt, List.pairwise_map]
      refine List.Pairwise.imp ?_ (List.pairwise_lt_range maxFrames)
      intro a b hab
      exact sampleIndices_strict_mono_step hm hlt hab
  · intro i hi
    rcases le_or_lt total maxFrames with hle | hlt
    · rw [sampleIndices_of_le hm hle, List.mem_map] at hi
      obtain ⟨a, ha, rfl⟩ := hi
      rw [List.mem_range] at ha
      exact ⟨Int.natCast_nonneg a, by exact_mod_cast ha⟩
    · rw [sampleIndices_of_lt hm hlt, List.mem_map] at hi
      obtain ⟨a, ha, rfl⟩ := hi
      rw [List.mem_range] at ha
      set r := frameRatio total maxFrames with hr
      have hr1 : 1 < r := (frameRatio_gt_one_iff hm).mpr hlt
      have hr0 : (0 : ℚ) ≤ r := le_trans zero_le_one hr1.le
      have hnn : (0 : ℚ) ≤ (a : ℚ) * r := mul_nonneg (by positivity) hr0
      rw [pyInt_of_nonneg hnn]
      refine ⟨Int.floor_nonneg.mpr hnn, ?_⟩
      rw [Int.floor_lt]
      have hmr : (maxFrames : ℚ) * r = (total : ℚ) := by
        rw [hr]
        unfold frameRatio
        field_simp
      have hle1 : (a : ℚ) ≤ (maxFrames : ℚ) - 1 := by
        have : (a : ℚ) + 1 ≤ (maxFrames : ℚ) := by exact_mod_cast ha
        linarith
      have hmul : (a : ℚ) * r ≤ ((maxFrames : ℚ) - 1) * r := by nlinarith
      push_cast
      nlinarith
  · intro native hn
    unfold sampleDuration
    by_cases hcond : 1 < frameRatio total maxFrames
    · rw [if_pos hcond]
      nlinarith
    · rw [if_neg hcond]
      exact hn

theorem sample_index_invariant_witness :
    0 < 120 ∧ 0 < 50 ∧ (∀ i ∈ sampleIndices 120 50, 0 ≤ i ∧ i < (120 : ℤ)) :=
  ⟨by decide, by decide, (sample_index_invariant 120 50 (by decide) (by decide)).2.1⟩

/-! ## Canvas fitter (`fit_size`, utils.py lines 66-104) -/

inductive FitSizeMode
  | INSIDE
  | INCLUDE
deriving DecidableEq

inductive FitSizeDir
  | CENTER
  | NORTH
  | SOUTH
  | WEST
  | EAST
  | NORTHWEST
  | NORTHEAST
  | SOUTHWEST
  | SOUTHEAST
deriving DecidableEq

/-- The scale factor of `fit_size` in exact rational arithmetic:
`min(w/img_w, h/img_h)` for INSIDE, `max(w/img_w, h/img_h)` for INCLUDE.
The source evaluates these quotients in double precision; `fitRatioF`
below is the rounding-faithful version. -/
def fitRatio (mode : FitSizeMode) (w h imgW imgH : ℕ) : ℚ :=
  match mode with
  | FitSizeMode.INSIDE => min ((w : ℚ) / (imgW : ℚ)) ((h : ℚ) / (imgH : ℚ))
  | FitSizeMode.INCLUDE => max ((w : ℚ) / (imgW : ℚ)) ((h : ℚ) / (imgH : ℚ))

/-- The resize target `(int(img_w * ratio), int(img_h * ratio))` of
`fit_size` in exact rational arithmetic; `fitScaledF` below is the
rounding-faithful version. -/
def fitScaled (mode : FitSizeMode) (w h imgW imgH : ℕ) : ℤ × ℤ :=
  (pyInt ((imgW : ℚ) * fitRatio mode w h imgW imgH),
   pyInt ((imgH : ℚ) * fitRatio mode w h imgW imgH))

/-- Round a rational to the nearest integer, ties to even. -/
def rne (m : ℚ) : ℤ :=
  if m - ⌊m⌋ < 1/2 then ⌊m⌋
  else if 1/2 < m - ⌊m⌋ then ⌊m⌋ + 1
  else if ⌊m⌋ % 2 = 0 then ⌊m⌋ else ⌊m⌋ + 1

/-- IEEE-754 binary64 rounding (round to nearest, ties to even) of an
exact rational value from the normal double range: 53 significant bits,
so the value is quantized at scale `2 ^ (Int.log 2 |q| - 52)`.  The
quantities `fit_size` computes never reach the subnormal or overflow
range, so this is exactly the double Python produces for them. -/
def roundDouble (q : ℚ) : ℚ :=
  if q = 0 then 0
  else (rne (q / 2 ^ (Int.log 2 |q| - 52)) : ℚ) * 2 ^ (Int.log 2 |q| - 52)

/-- The scale factor of `fit_size` as the source computes it, in double
precision: `w / img_w` and `h / img_h` are correctly rounded quotients
(the integer operands convert to doubles exactly), and `max`/`min` of
doubles are exact. -/
def fitRatioF (mode : FitSizeMode) (w h imgW imgH : ℕ) : ℚ :=
  match mode with
  | FitSizeMode.INSIDE =>
      min (roundDouble ((w : ℚ) / (imgW : ℚ))) (roundDouble ((h : ℚ) / (imgH : ℚ)))
  | FitSizeMode.INCLUDE =>
      max (roundDouble ((w : ℚ) / (imgW : ℚ))) (roundDouble ((h : ℚ) / (imgH : ℚ)))

/-- The resize target as the source computes it: `int(img_w * ratio)`
where the product is again correctly rounded to a double before the
truncation. -/
def fitScaledF (mode : FitSizeMode) (w h imgW imgH : ℕ) : ℤ × ℤ :=
  (pyInt (roundDouble ((imgW : ℚ) * fitRatioF mode w h imgW imgH)),
   pyInt (roundDouble ((imgH : ℚ) * fitRatioF mode w h imgW imgH)))

/-- The paste offset `(x, y)` of `fit_size`, given the scaled content size
`(sw, sh)`: centered by default, then overridden per direction exactly as
the two if/elif chains of the source do. -/
def fitOffset (direction : FitSizeDir) (w h : ℕ) (sw sh : ℤ) : ℤ × ℤ :=
  let x := pyInt (((w : ℚ) - (sw : ℚ)) / 2)
  let y := pyInt (((h : ℚ) - (sh : ℚ)) / 2)
  let y := if direction ∈ [FitSizeDir.NORTH, FitSizeDir.NORTHWEST, FitSizeDir.NORTHEAST]
    then 0
    else if direction ∈ [FitSizeDir.SOUTH, FitSizeDir.SOUTHWEST, FitSizeDir.SOUTHEAST]
    then (h : ℤ) - sh
    else y
  let x := if direction ∈ [FitSizeDir.WEST, FitSizeDir.NORTHWEST, FitSizeDir.SOUTHWEST]
    then 0
    else if direction ∈ [FitSizeDir.EAST, FitSizeDir.NORTHEAST, FitSizeDir.SOUTHEAST]
    then (w : ℤ) - sw
    else x
  (x, y)

/-- The data of the image returned by `fit_size`: the final canvas is
`Image.new("RGBA", size, bg_color)`, so its dimensions are the requested
`size`; the scaled content of size `contentW x contentH` is pasted at
`offset`. -/
structure FittedImage where
  width : ℕ
  height : ℕ
  contentW : ℤ
  contentH : ℤ
  offset : ℤ × ℤ
deriving DecidableEq

def fit_size (imgW imgH w h : ℕ) (mode : FitSizeMode) (direction : FitSizeDir) :
    FittedImage :=
  let s := fitScaled mode w h imgW imgH
  { width := w
    height := h
    contentW := s.1
    contentH := s.2
    offset := fitOffset direction w h s.1 s.2 }

/-- C3: for every source image with positive dimensions and every positive
target size, in both modes and for every direction, the image returned by
`fit_size` has exactly the requested dimensions. -/
theorem fit_size_dims (imgW imgH w h : ℕ) (mode : FitSizeMode)
    (direction : FitSizeDir) (hiw : 0 < imgW) (hih : 0 < imgH)
    (hw : 0 < w) (hh : 0 < h) :
    (fit_size imgW imgH w h mode direction).width = w ∧
    (fit_size imgW imgH w h mode direction).height = h :=
  ⟨rfl, rfl⟩

theorem fit_size_dims_witness :
    0 < 800 ∧ 0 < 600 ∧ 0 < 200 ∧ 0 < 200 ∧
    (fit_size 800 600 200 200 FitSizeMode.INCLUDE FitSizeDir.CENTER).width = 200 ∧
    (fit_size 800 600 200 200 FitSizeMode.INCLUDE FitSizeDir.CENTER).height = 200 := by
  refine ⟨by decide, by decide, by decide, by decide, ?_, ?_⟩
  · exact (fit_size_dims 800 600 200 200 FitSizeMode.INCLUDE FitSizeDir.CENTER
      (by decide) (by decide) (by decide) (by decide)).1
  · exact (fit_size_dims 800 600 200 200 FitSizeMode.INCLUDE FitSizeDir.CENTER
      (by decide) (by decide) (by decide) (by decide)).2

lemma rne_eq_of_lt_half {m : ℚ} {n : ℤ} (h1 : (n : ℚ) ≤ m) (h2 : m - n < 1/2) :
    rne m = n := by
  have hf : ⌊m⌋ = n := Int.floor_eq_iff.mpr ⟨h1, by linarith⟩
  unfold rne
  rw [hf, if_pos h2]

lemma int_log_eq_of {q : ℚ} {L : ℤ} (hq : 0 < q) (h1 : (2 : ℚ) ^ L ≤ q)
    (h2 : q < (2 : ℚ) ^ (L + 1)) : Int.log 2 q = L := by
  have h1c : (((2 : ℕ) : ℚ)) ^ L ≤ q := by exact_mod_cast h1
  have hl : L ≤ Int.log 2 q :=
    (Int.zpow_le_iff_le_log (by norm_num) hq).mp h1c
  have hu : ¬ (L + 1 ≤ Int.log 2 q) := by
    intro hcon
    have h2c : (((2 : ℕ) : ℚ)) ^ (L + 1) ≤ q :=
      (Int.zpow_le_iff_le_log (by norm_num) hq).mpr hcon
    have : (2 : ℚ) ^ (L + 1) ≤ q := by exact_mod_cast h2c
    linarith
  omega

lemma roundDouble_eq_of {q : ℚ} {L : ℤ} (hq : 0 < q) (h1 : (2 : ℚ) ^ L ≤ q)
    (h2 : q < (2 : ℚ) ^ (L + 1)) :
    roundDouble q = (rne (q / 2 ^ (L - 52)) : ℚ) * 2 ^ (L - 52) := by
  unfold roundDouble
  rw [if_neg hq.ne', abs_of_pos hq, int_log_eq_of hq h1 h2]

/-- The correctly rounded double for 1/49: it is strictly below 1/49. -/
lemma roundDouble_inv49 :
    roundDouble (1 / 49 : ℚ) = 5882252574524729 / 2 ^ 58 := by
  rw [roundDouble_eq_of (L := -6) (by norm_num) (by norm_num) (by norm_num)]
  have hdiv : (1 / 49 : ℚ) / 2 ^ ((-6 : ℤ) - 52) = 2 ^ 58 / 49 := by
    norm_num
  rw [hdiv, rne_eq_of_lt_half (n := 5882252574524729) (by norm_num) (by norm_num)]
  norm_num

/-- The correctly rounded double for `49 * fl(1/49)`: it is the largest
double below 1, so Python's `int` truncates it to 0. -/
lemma roundDouble_mul49 :
    roundDouble ((49 : ℚ) * (5882252574524729 / 2 ^ 58)) =
      9007199254740991 / 2 ^ 53 := by
  have hval : (49 : ℚ) * (5882252574524729 / 2 ^ 58) =
      288230376151711721 / 2 ^ 58 := by norm_num
  rw [hval, roundDouble_eq_of (L := -1) (by norm_num) (by norm_num) (by norm_num)]
  have hdiv : (288230376151711721 / 2 ^ 58 : ℚ) / 2 ^ ((-1 : ℤ) - 52) =
      288230376151711721 / 32 := by norm_num
  rw [hdiv, rne_eq_of_lt_half (n := 9007199254740991) (by norm_num) (by norm_num)]
  norm_num

/-- C4 as stated is false of the double-precision arithmetic the source
actually performs: for a 49 x 49 source and target (1, 1) under INCLUDE,
`1/49` rounds to a double slightly below 1/49, `49 * ratio` rounds to the
largest double below 1, and `int` truncates it to 0 — so the scaled
content is 0 x 0, strictly smaller than the target. -/
theorem fit_size_include_covers_cex :
    fitScaledF FitSizeMode.INCLUDE 1 1 49 49 = (0, 0) ∧
    ¬((1 : ℤ) ≤ (fitScaledF FitSizeMode.INCLUDE 1 1 49 49).1 ∧
      (1 : ℤ) ≤ (fitScaledF FitSizeMode.INCLUDE 1 1 49 49).2) := by
  have hcast : ((1 : ℕ) : ℚ) / ((49 : ℕ) : ℚ) = 1 / 49 := by norm_num
  have hratio : fitRatioF FitSizeMode.INCLUDE 1 1 49 49 =
      5882252574524729 / 2 ^ 58 := by
    unfold fitRatioF
    rw [hcast, max_self, roundDouble_inv49]
  have hsc : fitScaledF FitSizeMode.INCLUDE 1 1 49 49 = (0, 0) := by
    unfold fitScaledF
    rw [hratio, show ((49 : ℕ) : ℚ) = (49 : ℚ) by norm_num, roundDouble_mul49]
    have hpy : pyInt ((9007199254740991 : ℚ) / 2 ^ 53) = 0 := by
      rw [pyInt_of_nonneg (by positivity)]
      exact Int.floor_eq_iff.mpr ⟨by norm_num, by norm_num⟩
    rw [hpy]
  refine ⟨hsc, ?_⟩
  rw [hsc]
  intro hcon
  exact absurd hcon.1 (by norm_num)

/-- C4, amended: the real-valued products `img_w * ratio` and
`img_h * ratio` with `ratio = max(w/img_w, h/img_h)` are at least the
target dimensions, so in exact rational arithmetic the truncated scaled
content covers the target; the double-precision evaluation in the source
can round the product to just below the integer target, in which case
coverage fails (see the 49 x 49 counterexample). -/
theorem fit_size_include_covers (imgW imgH w h : ℕ)
    (hiw : 0 < imgW) (hih : 0 < imgH) (hw : 0 < w) (hh : 0 < h) :
    (w : ℚ) ≤ (imgW : ℚ) * fitRatio FitSizeMode.INCLUDE w h imgW imgH ∧
    (h : ℚ) ≤ (imgH : ℚ) * fitRatio FitSizeMode.INCLUDE w h imgW imgH ∧
    (w : ℤ) ≤ (fitScaled FitSizeMode.INCLUDE w h imgW imgH).1 ∧
    (h : ℤ) ≤ (fitScaled FitSizeMode.INCLUDE w h imgW imgH).2 := by
  have hiw0 : (imgW : ℚ) ≠ 0 := by positivity
  have hih0 : (imgH : ℚ) ≠ 0 := by positivity
  have hiwpos : (0 : ℚ) < (imgW : ℚ) := by exact_mod_cast hiw
  have hihpos : (0 : ℚ) < (imgH : ℚ) := by exact_mod_cast hih
  have hrw : (w : ℚ) ≤ (imgW : ℚ) * fitRatio FitSizeMode.INCLUDE w h imgW imgH := by
    unfold fitRatio
    calc (w : ℚ) = (imgW : ℚ) * ((w : ℚ) / (imgW : ℚ)) := by field_simp
      _ ≤ (imgW : ℚ) * max ((w : ℚ) / (imgW : ℚ)) ((h : ℚ) / (imgH : ℚ)) := by
          exact mul_le_mul_of_nonneg_left (le_max_left _ _) hiwpos.le
  have hrh : (h : ℚ) ≤ (imgH : ℚ) * fitRatio FitSizeMode.INCLUDE w h imgW imgH := by
    unfold fitRatio
    calc (h : ℚ) = (imgH : ℚ) * ((h : ℚ) / (imgH : ℚ)) := by field_simp
      _ ≤ (imgH : ℚ) * max ((w : ℚ) / (imgW : ℚ)) ((h : ℚ) / (imgH : ℚ)) := by
          exact mul_le_mul_of_nonneg_left (le_max_right _ _) hihpos.le
  refine ⟨hrw, hrh, ?_, ?_⟩
  · show (w : ℤ) ≤ pyInt ((imgW : ℚ) * fitRatio FitSizeMode.INCLUDE w h imgW imgH)
    rw [pyInt_of_nonneg (le_trans (by positivity) hrw)]
    rw [Int.le_floor]
    exact_mod_cast hrw
  · show (h : ℤ) ≤ pyInt ((imgH : ℚ) * fitRatio FitSizeMode.INCLUDE w h imgW imgH)
    rw [pyInt_of_nonneg (le_trans (by positivity) hrh)]
    rw [Int.le_floor]
    exact_mod_cast hrh

theorem fit_size_include_covers_witness :
    0 < 800 ∧ 0 < 600 ∧ 0 < 200 ∧ 0 < 200 ∧
    ((200 : ℤ) ≤ (fitScaled FitSizeMode.INCLUDE 200 200 800 600).1 ∧
     (200 : ℤ) ≤ (fitScaled FitSizeMode.INCLUDE 200 200 800 600).2) :=
  ⟨by decide, by decide, by decide, by decide,
    (fit_size_include_covers 800 600 200 200
      (by decide) (by decide) (by decide) (by decide)).2.2⟩

/-- C5: the paste offset of `fit_size` per direction: NORTHWEST pins the
content's top-left corner to (0,0); SOUTHEAST puts its bottom-right corner
at (w,h); every axis not named by the direction is centered via
`int((target - scaled) / 2)`. -/
theorem fit_offset_anchor (w h : ℕ) (sw sh : ℤ) :
    fitOffset FitSizeDir.NORTHWEST w h sw sh = (0, 0) ∧
    fitOffset FitSizeDir.SOUTHEAST w h sw sh = ((w : ℤ) - sw, (h : ℤ) - sh) ∧
    fitOffset FitSizeDir.CENTER w h sw sh =
      (pyInt (((w : ℚ) - (sw : ℚ)) / 2), pyInt (((h : ℚ) - (sh : ℚ)) / 2)) ∧
    fitOffset FitSizeDir.NORTH w h sw sh = (pyInt (((w : ℚ) - (sw : ℚ)) / 2), 0) ∧
    fitOffset FitSizeDir.SOUTH w h sw sh =
      (pyInt (((w : ℚ) - (sw : ℚ)) / 2), (h : ℤ) - sh) ∧
    fitOffset FitSizeDir.WEST w h sw sh = (0, pyInt (((h : ℚ) - (sh : ℚ)) / 2)) ∧
    fitOffset FitSizeDir.EAST w h sw sh =
      ((w : ℤ) - sw, pyInt (((h : ℚ) - (sh : ℚ)) / 2)) ∧
    fitOffset FitSizeDir.NORTHEAST w h sw sh = ((w : ℤ) - sw, 0) ∧
    fitOffset FitSizeDir.SOUTHWEST w h sw sh = (0, (h : ℤ) - sh) :=
  ⟨rfl, rfl, rfl, rfl, rfl, rfl, rfl, rfl, rfl⟩

/-! ## Font-size search (`fit_font_size`, utils.py lines 208-228)

The rendered bounding box `font.getsize_multiline(text, stroke_width=...)`
is an external collaborator (the font engine); it is modelled by an oracle
`measure : fontsize -> stroke_width -> (width, height)`. -/

/-- The fitting test of one loop iteration of `fit_font_size`: the rendered
size at font size `s`, with stroke width `int(fontsize * stroke_ratio)`,
does not exceed the box.  The source shrinks when
`width > max_width or height > max_height`; `fitsBox` is the negation. -/
def fitsBox (measure : ℤ → ℤ → ℚ × ℚ) (maxWidth maxHeight strokeRat : ℚ)
    (s : ℤ) : Bool :=
  let dims := measure s (pyInt ((s : ℚ) * strokeRat))
  !(decide (maxWidth < dims.1) || decide (maxHeight < dims.2))

/-- The `while True` loop of `fit_font_size`, over an abstract fitting
test: return `s` if it fits, return 0 once the next candidate would drop
below `minSize`, otherwise retry with `s - 1`. -/
def fitFontSizeAux (fits : ℤ → Bool) (minSize : ℤ) (s : ℤ) : ℤ :=
  if fits s then s
  else if _h : s - 1 < minSize then 0
  else fitFontSizeAux fits minSize (s - 1)
termination_by (s - minSize).toNat
decreasing_by omega

def fit_font_size (measure : ℤ → ℤ → ℚ × ℚ) (maxWidth maxHeight : ℚ)
    (maxSize minSize : ℤ) (strokeRat : ℚ) : ℤ :=
  fitFontSizeAux (fitsBox measure maxWidth maxHeight strokeRat) minSize maxSize

lemma fitFontSizeAux_of_fits {fits : ℤ → Bool} {minSize s : ℤ}
    (h : fits s = true) : fitFontSizeAux fits minSize s = s := by
  rw [fitFontSizeAux]
  simp [h]

lemma fitFontSizeAux_none {fits : ℤ → Bool} {minSize : ℤ} :
    ∀ n : ℕ, ∀ s : ℤ, minSize ≤ s → (s - minSize).toNat = n →
      (∀ t, minSize ≤ t → t ≤ s → fits t = false) →
      fitFontSizeAux fits minSize s = 0 := by
  intro n
  induction n with
  | zero =>
    intro s hs hn hall
    have hse : s = minSize := by omega
    rw [fitFontSizeAux]
    simp [hall s hs le_rfl]
    omega
  | succ n ih =>
    intro s hs hn hall
    rw [fitFontSizeAux]
    simp only [hall s hs le_rfl, Bool.false_eq_true, if_false]
    have hgt : ¬ s - 1 < minSize := by omega
    rw [dif_neg hgt]
    exact ih (s - 1) (by omega) (by omega) fun t h1 h2 => hall t h1 (by omega)

lemma fitFontSizeAux_finds {fits : ℤ → Bool} {minSize : ℤ} :
    ∀ n : ℕ, ∀ s : ℤ, minSize ≤ s → (s - minSize).toNat = n →
      (∃ t, minSize ≤ t ∧ t ≤ s ∧ fits t = true) →
      fits (fitFontSizeAux fits minSize s) = true ∧
      minSize ≤ fitFontSizeAux fits minSize s ∧
      fitFontSizeAux fits minSize s ≤ s ∧
      ∀ t, fitFontSizeAux fits minSize s < t → t ≤ s → fits t = false := by
  intro n
  induction n with
  | zero =>
    intro s hs hn hex
    obtain ⟨t, ht1, ht2, ht3⟩ := hex
    have hts : t = s := by omega
    subst hts
    rw [fitFontSizeAux_of_fits ht3]
    exact ⟨ht3, ht1, le_rfl, fun u h1 h2 => absurd (lt_of_lt_of_le h1 h2) (lt_irrefl t)⟩
  | succ n ih =>
    intro s hs hn hex
    by_cases hfit : fits s = true
    · rw [fitFontSizeAux_of_fits hfit]
      exact ⟨hfit, hs, le_rfl, fun u h1 h2 => by omega⟩
    · obtain ⟨t, ht1, ht2, ht3⟩ := hex
      have hts : t ≠ s := fun he => hfit (he ▸ ht3)
      have hgt : ¬ s - 1 < minSize := by omega
      have hrec : fitFontSizeAux fits minSize s = fitFontSizeAux fits minSize (s - 1) := by
        rw [fitFontSizeAux]
        simp only [hfit, Bool.false_eq_true, if_false]
        rw [dif_neg hgt]
      obtain ⟨c1, c2, c3, c4⟩ := ih (s - 1) (by omega) (by omega)
        ⟨t, ht1, by omega, ht3⟩
      rw [hrec]
      refine ⟨c1, c2, by omega, fun u h1 h2 => ?_⟩
      rcases lt_or_eq_of_le h2 with hus | hus
      · exact c4 u h1 (by omega)
      · subst hus
        exact eq_false_of_ne_true hfit

/-- C9: `fit_font_size` starts at `max_fontsize` and decrements by 1: when
some size in `[min_fontsize, max_fontsize]` fits (including the stroke
width `int(fontsize * stroke_ratio)` that `fitsBox` accounts for), it
returns the largest fitting size in that interval; when no size in the
interval fits, it returns 0 instead of raising. -/
theorem fit_font_size_search (measure : ℤ → ℤ → ℚ × ℚ)
    (maxWidth maxHeight : ℚ) (maxSize minSize : ℤ) (strokeRat : ℚ)
    (hle : minSize ≤ maxSize) :
    ((∃ t, minSize ≤ t ∧ t ≤ maxSize ∧
        fitsBox measure maxWidth maxHeight strokeRat t = true) →
      (fitsBox measure maxWidth maxHeight strokeRat
          (fit_font_size measure maxWidth maxHeight maxSize minSize strokeRat) = true ∧
       minSize ≤ fit_font_size measure maxWidth maxHeight maxSize minSize strokeRat ∧
       fit_font_size measure maxWidth maxHeight maxSize minSize strokeRat ≤ maxSize ∧
       ∀ t, fit_font_size measure maxWidth maxHeight maxSize minSize strokeRat < t →
         t ≤ maxSize → fitsBox measure maxWidth maxHeight strokeRat t = false)) ∧
    ((∀ t, minSize ≤ t → t ≤ maxSize →
        fitsBox measure maxWidth maxHeight strokeRat t = false) →
      fit_font_size measure maxWidth maxHeight maxSize minSize strokeRat = 0) := by
  constructor
  · intro hex
    exact fitFontSizeAux_finds ((maxSize - minSize).toNat) maxSize hle rfl hex
  · intro hall
    exact fitFontSizeAux_none ((maxSize - minSize).toNat) maxSize hle rfl hall

theorem fit_font_size_search_witness :
    (1 : ℤ) ≤ 8 ∧
    ((∃ t, (1 : ℤ) ≤ t ∧ t ≤ 8 ∧
        fitsBox (fun s _ => ((s : ℚ), (s : ℚ))) 5 5 0 t = true) →
      (fitsBox (fun s _ => ((s : ℚ), (s : ℚ))) 5 5 0
          (fit_font_size (fun s _ => ((s : ℚ), (s : ℚ))) 5 5 8 1 0) = true ∧
       (1 : ℤ) ≤ fit_font_size (fun s _ => ((s : ℚ), (s : ℚ))) 5 5 8 1 0 ∧
       fit_font_size (fun s _ => ((s : ℚ), (s : ℚ))) 5 5 8 1 0 ≤ 8 ∧
       ∀ t, fit_font_size (fun s _ => ((s : ℚ), (s : ℚ))) 5 5 8 1 0 < t →
         t ≤ 8 → fitsBox (fun s _ => ((s : ℚ), (s : ℚ))) 5 5 0 t = false)) ∧
    ((∀ t, (1 : ℤ) ≤ t → t ≤ 8 →
        fitsBox (fun s _ => ((s : ℚ), (s : ℚ))) 5 5 0 t = false) →
      fit_font_size (fun s _ => ((s : ℚ), (s : ℚ))) 5 5 8 1 0 = 0) :=
  ⟨by decide,
    (fit_font_size_search (fun s _ => ((s : ℚ), (s : ℚ))) 5 5 8 1 0 (by decide)).1,
    (fit_font_size_search (fun s _ => ((s : ℚ), (s : ℚ))) 5 5 8 1 0 (by decide)).2⟩

/-- C10: whenever the text already fits at `max_fontsize`, `fit_font_size`
returns `max_fontsize` on the very first iteration, with no check against
`min_fontsize` — in particular this holds even when
`max_fontsize < min_fontsize`, so the result is not guaranteed to lie in
`[min_fontsize, max_fontsize]`. -/
theorem fit_font_size_max_shortcut (measure : ℤ → ℤ → ℚ × ℚ)
    (maxWidth maxHeight : ℚ) (maxSize minSize : ℤ) (strokeRat : ℚ)
    (hfit : fitsBox measure maxWidth maxHeight strokeRat maxSize = true) :
    fit_font_size measure maxWidth maxHeight maxSize minSize strokeRat = maxSize := by
  unfold fit_font_size
  exact fitFontSizeAux_of_fits hfit

theorem fit_font_size_max_shortcut_witness :
    fitsBox (fun _ _ => ((0 : ℚ), (0 : ℚ))) 1 1 0 3 = true ∧
    (3 : ℤ) < 10 ∧
    fit_font_size (fun _ _ => ((0 : ℚ), (0 : ℚ))) 1 1 3 10 0 = 3 :=
  ⟨by decide, by decide,
    fit_font_size_max_shortcut (fun _ _ => ((0 : ℚ), (0 : ℚ))) 1 1 3 10 0 (by decide)⟩

/-! ## Geometry kernel (`perspective` / `find_coeffs`, utils.py lines 107-132) -/

open Matrix

lemma vec8at0 {α : Type} (a b c d e f g h : α) : ![a,b,c,d,e,f,g,h] (0 : Fin 8) = a := rfl

lemma vec8at1 {α : Type} (a b c d e f g h : α) : ![a,b,c,d,e,f,g,h] (1 : Fin 8) = b := rfl

lemma vec8at2 {α : Type} (a b c d e f g h : α) : ![a,b,c,d,e,f,g,h] (2 : Fin 8) = c := rfl

lemma vec8at3 {α : Type} (a b c d e f g h : α) : ![a,b,c,d,e,f,g,h] (3 : Fin 8) = d := rfl

lemma vec8at4 {α : Type} (a b c d e f g h : α) : ![a,b,c,d,e,f,g,h] (4 : Fin 8) = e := rfl

lemma vec8at5 {α : Type} (a b c d e f g h : α) : ![a,b,c,d,e,f,g,h] (5 : Fin 8) = f := rfl

lemma vec8at6 {α : Type} (a b c d e f g h : α) : ![a,b,c,d,e,f,g,h] (6 : Fin 8) = g := rfl

lemma vec8at7 {α : Type} (a b c d e f g h : α) : ![a,b,c,d,e,f,g,h] (7 : Fin 8) = h := rfl

lemma vec4at0 {α : Type} (a b c d : α) : ![a,b,c,d] (0 : Fin 4) = a := rfl

lemma vec4at1 {α : Type} (a b c d : α) : ![a,b,c,d] (1 : Fin 4) = b := rfl

lemma vec4at2 {α : Type} (a b c d : α) : ![a,b,c,d] (2 : Fin 4) = c := rfl

lemma vec4at3 {α : Type} (a b c d : α) : ![a,b,c,d] (3 : Fin 4) = d := rfl

lemma prodFst {α β : Type} (a : α) (b : β) : (a, b).1 = a := rfl

lemma prodSnd {α β : Type} (a : α) (b : β) : (a, b).2 = b := rfl

lemma funext8 {α : Type} {u w : Fin 8 → α} (h0 : u 0 = w 0) (h1 : u 1 = w 1)
    (h2 : u 2 = w 2) (h3 : u 3 = w 3) (h4 : u 4 = w 4) (h5 : u 5 = w 5)
    (h6 : u 6 = w 6) (h7 : u 7 = w 7) : u = w := by
  funext i
  match i with
  | 0 => exact h0
  | 1 => exact h1
  | 2 => exact h2
  | 3 => exact h3
  | 4 => exact h4
  | 5 => exact h5
  | 6 => exact h6
  | 7 => exact h7

/-- Row `[x, y, 1, 0, 0, 0, -x2*x, -x2*y]` that `find_coeffs` appends for a
correspondence `p1 -> p2` (the x-coordinate equation). -/
def mRowX (p q : ℚ × ℚ) : Fin 8 → ℚ :=
  ![p.1, p.2, 1, 0, 0, 0, -q.1 * p.1, -q.1 * p.2]

/-- Row `[0, 0, 0, x, y, 1, -y2*x, -y2*y]` that `find_coeffs` appends for a
correspondence `p1 -> p2` (the y-coordinate equation). -/
def mRowY (p q : ℚ × ℚ) : Fin 8 → ℚ :=
  ![0, 0, 0, p.1, p.2, 1, -q.2 * p.1, -q.2 * p.2]

/-- The 8x8 matrix `A` that `find_coeffs` builds from the four
correspondences `pa i -> pb i`. -/
def coeffMatrix (pa pb : Fin 4 → ℚ × ℚ) : Matrix (Fin 8) (Fin 8) ℚ :=
  Matrix.of ![mRowX (pa 0) (pb 0), mRowY (pa 0) (pb 0),
              mRowX (pa 1) (pb 1), mRowY (pa 1) (pb 1),
              mRowX (pa 2) (pb 2), mRowY (pa 2) (pb 2),
              mRowX (pa 3) (pb 3), mRowY (pa 3) (pb 3)]

/-- The right-hand side `B = numpy.array(pb).reshape(8)`. -/
def rhsVec (pb : Fin 4 → ℚ × ℚ) : Fin 8 → ℚ :=
  ![(pb 0).1, (pb 0).2, (pb 1).1, (pb 1).2, (pb 2).1, (pb 2).2, (pb 3).1, (pb 3).2]

/-- Failure of the perspective solve: the spec's GeometryError, raised (as
numpy's LinAlgError) when `A.T * A` is singular and cannot be inverted. -/
inductive GeometryError
  | singular
deriving DecidableEq

/-- Matrix inverse over `ℚ` by the adjugate formula — the exact value
`numpy.linalg.inv` computes when the determinant is nonzero. -/
def matInv (M : Matrix (Fin 8) (Fin 8) ℚ) : Matrix (Fin 8) (Fin 8) ℚ :=
  M.det⁻¹ • M.adjugate

/-- `find_coeffs(pa, pb)`: the normal-equation solve
`(A.T * A)^(-1) * A.T * B`; when `A.T * A` is singular `numpy.linalg.inv`
raises, modelled by `GeometryError.singular`. -/
def find_coeffs (pa pb : Fin 4 → ℚ × ℚ) : Except GeometryError (Fin 8 → ℚ) :=
  if ((coeffMatrix pa pb)ᵀ * coeffMatrix pa pb).det = 0 then
    Except.error GeometryError.singular
  else
    Except.ok ((matInv ((coeffMatrix pa pb)ᵀ * coeffMatrix pa pb) *
      (coeffMatrix pa pb)ᵀ) *ᵥ rhsVec pb)

/-- The source-corner quadrilateral
`p = [(0, 0), (img_w, 0), (img_w, img_h), (0, img_h)]` of `perspective`. -/
def srcCorners (w h : ℕ) : Fin 4 → ℚ × ℚ :=
  ![(0, 0), ((w : ℚ), 0), ((w : ℚ), (h : ℚ)), (0, (h : ℚ))]

def qmax4 (a b c d : ℚ) : ℚ := max (max a b) (max c d)

def qmin4 (a b c d : ℚ) : ℚ := min (min a b) (min c d)

/-- The coefficient vector `[1, 0, 0, 0, 1, 0, 0, 0]` of the identity
projective map. -/
def idCoeffs : Fin 8 → ℚ := ![1, 0, 0, 0, 1, 0, 0, 0]

/-- The pixel contract of `img.transform(size, PERSPECTIVE, coeffs)`: the
output pixel at (x, y) samples the source at the fractional-linear image
`((a*x+b*y+c)/(g*x+h*y+1), (d*x+e*y+f)/(g*x+h*y+1))` of (x, y). -/
def perspApply {α : Type} (c : Fin 8 → ℚ) (src : ℚ → ℚ → α) : ℚ → ℚ → α :=
  fun x y =>
    src ((c 0 * x + c 1 * y + c 2) / (c 6 * x + c 7 * y + 1))
        ((c 3 * x + c 4 * y + c 5) / (c 6 * x + c 7 * y + 1))

/-- The output of `perspective`: the computed canvas size together with the
warped pixel-sampling function. -/
structure WarpedImage (α : Type) where
  width : ℤ
  height : ℤ
  pixel : ℚ → ℚ → α

/-- `perspective(img, points)`: compute the output size from the bounding
box of `points`, solve for the coefficients, and warp.  A singular solve
raises before any image is produced. -/
def perspective {α : Type} (imgW imgH : ℕ) (src : ℚ → ℚ → α)
    (points : Fin 4 → ℚ × ℚ) : Except GeometryError (WarpedImage α) :=
  match find_coeffs points (srcCorners imgW imgH) with
  | Except.error e => Except.error e
  | Except.ok c =>
      Except.ok
        { width := pyInt (qmax4 (points 0).1 (points 1).1 (points 2).1 (points 3).1 -
            qmin4 (points 0).1 (points 1).1 (points 2).1 (points 3).1)
          height := pyInt (qmax4 (points 0).2 (points 1).2 (points 2).2 (points 3).2 -
            qmin4 (points 0).2 (points 1).2 (points 2).2 (points 3).2)
          pixel := perspApply c src }

/-- `(q - p) x (r - p) = 0`: the three points lie on one line. -/
def collinear (p q r : ℚ × ℚ) : Prop :=
  (q.1 - p.1) * (r.2 - p.2) = (q.2 - p.2) * (r.1 - p.1)

/-- Three of the four destination points are collinear. -/
def threeCollinear (pts : Fin 4 → ℚ × ℚ) : Prop :=
  collinear (pts 0) (pts 1) (pts 2) ∨ collinear (pts 0) (pts 1) (pts 3) ∨
  collinear (pts 0) (pts 2) (pts 3) ∨ collinear (pts 1) (pts 2) (pts 3)

lemma det_ne_zero_of_trivial_kernel (M : Matrix (Fin 8) (Fin 8) ℚ)
    (h : ∀ v : Fin 8 → ℚ, M *ᵥ v = 0 → v = 0) : M.det ≠ 0 := by
  intro hd
  obtain ⟨v, hv0, hv⟩ := Matrix.exists_mulVec_eq_zero_iff.mpr hd
  exact hv0 (h v hv)

lemma normal_kernel_eq (A : Matrix (Fin 8) (Fin 8) ℚ) (v : Fin 8 → ℚ)
    (hv : (Aᵀ * A) *ᵥ v = 0) : A *ᵥ v = 0 := by
  have h1 : v ⬝ᵥ ((Aᵀ * A) *ᵥ v) = 0 := by
    rw [hv]
    exact Matrix.dotProduct_zero v
  rw [← Matrix.mulVec_mulVec, Matrix.dotProduct_mulVec, Matrix.vecMul_transpose] at h1
  exact Matrix.dotProduct_self_eq_zero.mp h1

lemma normal_det_ne_zero (A : Matrix (Fin 8) (Fin 8) ℚ)
    (h : ∀ v : Fin 8 → ℚ, A *ᵥ v = 0 → v = 0) : (Aᵀ * A).det ≠ 0 := by
  apply det_ne_zero_of_trivial_kernel
  intro v hv
  exact h v (normal_kernel_eq A v hv)

lemma normal_det_zero_of_kernel (A : Matrix (Fin 8) (Fin 8) ℚ) (v : Fin 8 → ℚ)
    (hv0 : v ≠ 0) (hv : A *ᵥ v = 0) : (Aᵀ * A).det = 0 := by
  apply Matrix.exists_mulVec_eq_zero_iff.mp
  refine ⟨v, hv0, ?_⟩
  rw [← Matrix.mulVec_mulVec, hv]
  exact Matrix.mulVec_zero Aᵀ

lemma matInv_mul_self (M : Matrix (Fin 8) (Fin 8) ℚ) (h : M.det ≠ 0) :
    matInv M * M = 1 := by
  unfold matInv
  rw [Matrix.smul_mul, Matrix.adjugate_mul, smul_smul, inv_mul_cancel₀ h, one_smul]

/-- When `A x = B` has the exact solution `e` and `A.T * A` is invertible,
the normal-equation solve returns exactly `e`. -/
lemma find_coeffs_of_exact (pa pb : Fin 4 → ℚ × ℚ) (e : Fin 8 → ℚ)
    (hdet : ((coeffMatrix pa pb)ᵀ * coeffMatrix pa pb).det ≠ 0)
    (he : coeffMatrix pa pb *ᵥ e = rhsVec pb) :
    find_coeffs pa pb = Except.ok e := by
  unfold find_coeffs
  rw [if_neg hdet]
  congr 1
  rw [← Matrix.mulVec_mulVec, ← he, Matrix.mulVec_mulVec, Matrix.mulVec_mulVec,
    Matrix.mul_assoc, matInv_mul_self _ hdet, Matrix.one_mulVec]

lemma corner_kernel (W H : ℕ) (hW : 0 < W) (hH : 0 < H) (v : Fin 8 → ℚ)
    (hv : coeffMatrix (srcCorners W H) (srcCorners W H) *ᵥ v = 0) : v = 0 := by
  have hW0 : (W : ℚ) ≠ 0 := Nat.cast_ne_zero.mpr (by omega)
  have hH0 : (H : ℚ) ≠ 0 := Nat.cast_ne_zero.mpr (by omega)
  have h0 := congrFun hv 0
  have h1 := congrFun hv 1
  have h2 := congrFun hv 2
  have h3 := congrFun hv 3
  have h4 := congrFun hv 4
  have h5 := congrFun hv 5
  have h6 := congrFun hv 6
  have h7 := congrFun hv 7
  simp only [Matrix.mulVec, Matrix.dotProduct, Fin.sum_univ_eight, coeffMatrix,
    Matrix.of_apply, vec8at0, vec8at1, vec8at2, vec8at3, vec8at4, vec8at5, vec8at6,
    vec8at7, mRowX, mRowY, srcCorners, vec4at0, vec4at1, vec4at2, vec4at3,
    prodFst, prodSnd, Pi.zero_apply] at h0 h1 h2 h3 h4 h5 h6 h7
  have e2 : v 2 = 0 := by linear_combination h0
  have e5 : v 5 = 0 := by linear_combination h1
  have e1 : v 1 = 0 := by
    have hx : (H : ℚ) * v 1 = 0 := by linear_combination h6 - e2
    exact (mul_eq_zero.mp hx).resolve_left hH0
  have e3 : v 3 = 0 := by
    have hx : (W : ℚ) * v 3 = 0 := by linear_combination h3 - e5
    exact (mul_eq_zero.mp hx).resolve_left hW0
  have e7 : v 7 = 0 := by
    have hx : (W : ℚ) * ((H : ℚ) * v 7) = 0 := by
      linear_combination h2 - h4 + (H : ℚ) * e1
    exact (mul_eq_zero.mp ((mul_eq_zero.mp hx).resolve_left hW0)).resolve_left hH0
  have e4 : v 4 = 0 := by
    have hx : (H : ℚ) * v 4 = 0 := by
      linear_combination h7 - e5 + (H : ℚ) * (H : ℚ) * e7
    exact (mul_eq_zero.mp hx).resolve_left hH0
  have e6 : v 6 = 0 := by
    have hx : (W : ℚ) * ((H : ℚ) * v 6) = 0 := by
      linear_combination -h5 + (W : ℚ) * e3 + (H : ℚ) * e4 + e5 -
        (H : ℚ) * (H : ℚ) * e7
    exact (mul_eq_zero.mp ((mul_eq_zero.mp hx).resolve_left hW0)).resolve_left hH0
  have e0 : v 0 = 0 := by
    have hx : (W : ℚ) * v 0 = 0 := by
      linear_combination h2 - e2 + (W : ℚ) * (W : ℚ) * e6
    exact (mul_eq_zero.mp hx).resolve_left hW0
  exact funext8 e0 e1 e2 e3 e4 e5 e6 e7

lemma corner_exact (W H : ℕ) :
    coeffMatrix (srcCorners W H) (srcCorners W H) *ᵥ idCoeffs =
      rhsVec (srcCorners W H) := by
  apply funext8 <;>
    simp only [Matrix.mulVec, Matrix.dotProduct, Fin.sum_univ_eight, coeffMatrix,
      Matrix.of_apply, vec8at0, vec8at1, vec8at2, vec8at3, vec8at4, vec8at5,
      vec8at6, vec8at7, mRowX, mRowY, srcCorners, vec4at0, vec4at1, vec4at2,
      vec4at3, prodFst, prodSnd, idCoeffs, rhsVec] <;>
    ring

/-- C1: warping an image of size W x H to destination points equal to its
own four corners in order solves to the identity coefficient vector
a=1, b=0, c=0, d=0, e=1, f=0, g=0, h=0, and the output image has size
exactly W x H with every pixel sampled from the same source coordinate. -/
theorem perspective_identity (W H : ℕ) (hW : 0 < W) (hH : 0 < H) {α : Type}
    (src : ℚ → ℚ → α) :
    find_coeffs (srcCorners W H) (srcCorners W H) = Except.ok idCoeffs ∧
    perspective W H src (srcCorners W H) =
      Except.ok ⟨(W : ℤ), (H : ℤ), src⟩ := by
  have hdet := normal_det_ne_zero _ (fun v hv => corner_kernel W H hW hH v hv)
  have hsolve : find_coeffs (srcCorners W H) (srcCorners W H) = Except.ok idCoeffs :=
    find_coeffs_of_exact _ _ _ hdet (corner_exact W H)
  refine ⟨hsolve, ?_⟩
  unfold perspective
  rw [hsolve]
  have hWle : (0 : ℚ) ≤ (W : ℚ) := by positivity
  have hHle : (0 : ℚ) ≤ (H : ℚ) := by positivity
  have hpix : perspApply idCoeffs src = src := by
    funext x y
    simp only [perspApply, idCoeffs, vec8at0, vec8at1, vec8at2, vec8at3, vec8at4,
      vec8at5, vec8at6, vec8at7, one_mul, zero_mul, add_zero, zero_add, div_one]
  have hxs : ∀ i : Fin 4, (srcCorners W H i).1 =
      ![(0 : ℚ), (W : ℚ), (W : ℚ), 0] i := by
    intro i
    match i with
    | 0 => rfl
    | 1 => rfl
    | 2 => rfl
    | 3 => rfl
  have hwidth : pyInt (qmax4 (srcCorners W H 0).1 (srcCorners W H 1).1
      (srcCorners W H 2).1 (srcCorners W H 3).1 -
      qmin4 (srcCorners W H 0).1 (srcCorners W H 1).1
      (srcCorners W H 2).1 (srcCorners W H 3).1) = (W : ℤ) := by
    rw [hxs 0, hxs 1, hxs 2, hxs 3, vec4at0, vec4at1, vec4at2, vec4at3]
    unfold qmax4 qmin4
    rw [max_eq_right hWle, max_eq_left hWle, max_self,
      min_eq_left hWle, min_eq_right hWle, min_self, sub_zero, pyInt_natCast]
  have hys : ∀ i : Fin 4, (srcCorners W H i).2 =
      ![(0 : ℚ), 0, (H : ℚ), (H : ℚ)] i := by
    intro i
    match i with
    | 0 => rfl
    | 1 => rfl
    | 2 => rfl
    | 3 => rfl
  have hheight : pyInt (qmax4 (srcCorners W H 0).2 (srcCorners W H 1).2
      (srcCorners W H 2).2 (srcCorners W H 3).2 -
      qmin4 (srcCorners W H 0).2 (srcCorners W H 1).2
      (srcCorners W H 2).2 (srcCorners W H 3).2) = (H : ℤ) := by
    rw [hys 0, hys 1, hys 2, hys 3, vec4at0, vec4at1, vec4at2, vec4at3]
    unfold qmax4 qmin4
    rw [max_self, max_self, max_eq_right hHle,
      min_self, min_self, min_eq_left hHle, sub_zero, pyInt_natCast]
  show Except.ok (WarpedImage.mk
      (pyInt (qmax4 (srcCorners W H 0).1 (srcCorners W H 1).1
        (srcCorners W H 2).1 (srcCorners W H 3).1 -
        qmin4 (srcCorners W H 0).1 (srcCorners W H 1).1
        (srcCorners W H 2).1 (srcCorners W H 3).1))
      (pyInt (qmax4 (srcCorners W H 0).2 (srcCorners W H 1).2
        (srcCorners W H 2).2 (srcCorners W H 3).2 -
        qmin4 (srcCorners W H 0).2 (srcCorners W H 1).2
        (srcCorners W H 2).2 (srcCorners W H 3).2))
      (perspApply idCoeffs src)) = _
  rw [hwidth, hheight, hpix]

theorem perspective_identity_witness :
    0 < 2 ∧ 0 < 3 ∧
    (find_coeffs (srcCorners 2 3) (srcCorners 2 3) = Except.ok idCoeffs ∧
     perspective 2 3 (fun x y => ((x, y) : ℚ × ℚ)) (srcCorners 2 3) =
       Except.ok ⟨((2 : ℕ) : ℤ), ((3 : ℕ) : ℤ), fun x y => ((x, y) : ℚ × ℚ)⟩) :=
  ⟨by decide, by decide,
    perspective_identity 2 3 (by decide) (by decide) (fun x y => ((x, y) : ℚ × ℚ))⟩

/-- The destination quadrilateral (0,1), (1,1), (2,1), (0,0): its first
three points are collinear (on the line y = 1), yet its system matrix is
invertible. -/
def colPts : Fin 4 → ℚ × ℚ := ![(0, 1), (1, 1), (2, 1), (0, 0)]

/-- The destination quadrilateral (0,0), (1,0), (2,0), (0,1): its first
three points are collinear (on the line y = 0) and its normal matrix is
singular. -/
def colPts2 : Fin 4 → ℚ × ℚ := ![(0, 0), (1, 0), (2, 0), (0, 1)]

lemma perspective_of_ok (imgW imgH : ℕ) {α : Type} (src : ℚ → ℚ → α)
    (points : Fin 4 → ℚ × ℚ) (c : Fin 8 → ℚ)
    (hfc : find_coeffs points (srcCorners imgW imgH) = Except.ok c) :
    perspective imgW imgH src points = Except.ok
      ⟨pyInt (qmax4 (points 0).1 (points 1).1 (points 2).1 (points 3).1 -
        qmin4 (points 0).1 (points 1).1 (points 2).1 (points 3).1),
       pyInt (qmax4 (points 0).2 (points 1).2 (points 2).2 (points 3).2 -
        qmin4 (points 0).2 (points 1).2 (points 2).2 (points 3).2),
       perspApply c src⟩ := by
  unfold perspective
  rw [hfc]

/-- C2 as stated is false: `colPts` has three collinear points, yet for a
1 x 1 source image the normal matrix is invertible, the solve succeeds,
and `perspective` returns an output image instead of raising. -/
theorem perspective_three_collinear_ok :
    threeCollinear colPts ∧
    find_coeffs colPts (srcCorners 1 1) ≠ Except.error GeometryError.singular ∧
    perspective 1 1 (fun x _ => x) colPts ≠ Except.error GeometryError.singular := by
  have hker : ∀ v : Fin 8 → ℚ, coeffMatrix colPts (srcCorners 1 1) *ᵥ v = 0 →
      v = 0 := by
    intro v hv
    have h0 := congrFun hv 0
    have h1 := congrFun hv 1
    have h2 := congrFun hv 2
    have h3 := congrFun hv 3
    have h4 := congrFun hv 4
    have h5 := congrFun hv 5
    have h6 := congrFun hv 6
    have h7 := congrFun hv 7
    simp only [Matrix.mulVec, Matrix.dotProduct, Fin.sum_univ_eight, coeffMatrix,
      Matrix.of_apply, vec8at0, vec8at1, vec8at2, vec8at3, vec8at4, vec8at5,
      vec8at6, vec8at7, mRowX, mRowY, srcCorners, colPts, vec4at0, vec4at1,
      vec4at2, vec4at3, prodFst, prodSnd, Pi.zero_apply, Nat.cast_one]
      at h0 h1 h2 h3 h4 h5 h6 h7
    have e0 : v 0 = 0 := by linarith
    have e1 : v 1 = 0 := by linarith
    have e2 : v 2 = 0 := by linarith
    have e3 : v 3 = 0 := by linarith
    have e4 : v 4 = 0 := by linarith
    have e5 : v 5 = 0 := by linarith
    have e6 : v 6 = 0 := by linarith
    have e7 : v 7 = 0 := by linarith
    exact funext8 e0 e1 e2 e3 e4 e5 e6 e7
  have hdet := normal_det_ne_zero _ hker
  refine ⟨?_, ?_, ?_⟩
  · left
    show ((colPts 1).1 - (colPts 0).1) * ((colPts 2).2 - (colPts 0).2) =
      ((colPts 1).2 - (colPts 0).2) * ((colPts 2).1 - (colPts 0).1)
    norm_num [colPts, vec4at0, vec4at1, vec4at2, prodFst, prodSnd]
  · unfold find_coeffs
    rw [if_neg hdet]
    intro h
    exact Except.noConfusion h
  · have hfc : find_coeffs colPts (srcCorners 1 1) =
        Except.ok ((matInv ((coeffMatrix colPts (srcCorners 1 1))ᵀ *
          coeffMatrix colPts (srcCorners 1 1)) *
          (coeffMatrix colPts (srcCorners 1 1))ᵀ) *ᵥ rhsVec (srcCorners 1 1)) := by
      unfold find_coeffs
      rw [if_neg hdet]
    rw [perspective_of_ok 1 1 (fun x _ => x) colPts _ hfc]
    intro h
    exact Except.noConfusion h

/-- C2 amended: three collinear destination points do not by themselves
make the normal matrix singular, but whenever `A.T * A` is singular the
solve raises GeometryError (numpy's LinAlgError) and no output image is
produced. -/
theorem perspective_singular_error (W H : ℕ) {α : Type} (src : ℚ → ℚ → α)
    (pts : Fin 4 → ℚ × ℚ) (h3 : threeCollinear pts)
    (hdet : ((coeffMatrix pts (srcCorners W H))ᵀ *
      coeffMatrix pts (srcCorners W H)).det = 0) :
    perspective W H src pts = Except.error GeometryError.singular := by
  have hfc : find_coeffs pts (srcCorners W H) =
      Except.error GeometryError.singular := by
    unfold find_coeffs
    rw [if_pos hdet]
  unfold perspective
  rw [hfc]

/-- A nonzero kernel vector of the system matrix of `colPts2`. -/
def gramKernelVec : Fin 8 → ℚ := ![0, 0, 0, 0, 1, 0, 0, 1]

theorem perspective_singular_error_witness :
    threeCollinear colPts2 ∧
    perspective 1 1 (fun x _ => x) colPts2 = Except.error GeometryError.singular := by
  have h3 : threeCollinear colPts2 := by
    left
    show ((colPts2 1).1 - (colPts2 0).1) * ((colPts2 2).2 - (colPts2 0).2) =
      ((colPts2 1).2 - (colPts2 0).2) * ((colPts2 2).1 - (colPts2 0).1)
    norm_num [colPts2, vec4at0, vec4at1, vec4at2, prodFst, prodSnd]
  have hdet : ((coeffMatrix colPts2 (srcCorners 1 1))ᵀ *
      coeffMatrix colPts2 (srcCorners 1 1)).det = 0 := by
    apply normal_det_zero_of_kernel _ gramKernelVec
    · intro hcontra
      have h4 : (1 : ℚ) = 0 := congrFun hcontra 4
      exact one_ne_zero h4
    · apply funext8 <;>
        simp only [Matrix.mulVec, Matrix.dotProduct, Fin.sum_univ_eight,
          coeffMatrix, Matrix.of_apply, vec8at0, vec8at1, vec8at2, vec8at3,
          vec8at4, vec8at5, vec8at6, vec8at7, mRowX, mRowY, srcCorners, colPts2,
          vec4at0, vec4at1, vec4at2, vec4at3, prodFst, prodSnd, gramKernelVec,
          Nat.cast_one, Pi.zero_apply] <;>
        norm_num
  exact ⟨h3, perspective_singular_error 1 1 (fun x _ => x) colPts2 h3 hdet⟩

end Petpet
